import Mathlib

/-!
Shallow embedding of the CAT intraprocedural dataflow analyzer and optimizer
(`src/src/CatPass.cpp`).  The embedding translates the per-instruction transfer
functions, the type-classifier prepass, the reaching-definition / alias /
points-to state, the block change-detection step of the worklist driver, and
the two rewriter passes.  Machine values are identified by stable identity, as
in LLVM: an instruction result is `Val.inst id` where `id` is the instruction's
index in the (straight-line) instruction list; `UNKNOWN` is the `none` element
of `Option`-typed token sets, mirroring the `nullptr` sentinel of the C++.
-/

namespace CatPass

/-- An IR value, identified by stable identity: the result of the instruction
at a given index, a function argument, a module global, an integer constant
(`ConstantInt`), or some other non-CAT value. -/
inductive Val where
  | inst (id : Nat)
  | arg (n : Nat)
  | glob (n : Nat)
  | constInt (k : Int)
  | otherVal (n : Nat)
deriving DecidableEq

/-- A definition token in a reaching-definition set: `some id` is the call
instruction at index `id`; `none` is the `UNKNOWN` (`nullptr`) sentinel. -/
abbrev DefTok := Option Nat

/-- A points-to token: `some v` is a pointed-to value; `none` is `UNKNOWN`. -/
abbrev PtTok := Option Val

/-- The name of a called function, discriminated exactly as the C++ does by
string comparison: the six CAT runtime entry points, `printf`, any name
beginning with `llvm.lifetime`, and arbitrary other callees (`miscFn`). -/
inductive CName where
  | new | get | set | add | sub | destroy
  | printfName
  | lifetime
  | miscFn (n : Nat)
deriving DecidableEq

/-- An instruction of a straight-line block, carrying exactly the operands the
analyzer inspects.  `select` records whether the result is pointer-typed
(`I.getType()->isPointerTy()`), since the RDA transfer only fires on
pointer-typed selects.  A `call` records the callee name, the argument list,
and — for the dynamic return-type classification of non-CAT calls — whether
the return type is a pointer and, if so, whether its pointee is the byte
integer type (`some true`: `i8*`; `some false`: other pointer; `none`: not a
pointer).  `other` covers every instruction kind the pass ignores
(terminators, arithmetic, ...). -/
inductive Inst where
  | alloca
  | select (ptrTy : Bool) (a b : Val)
  | store (v p : Val)
  | load (p : Val)
  | call (cn : CName) (args : List Val) (retPtr : Option Bool)
  | other
deriving DecidableEq

/-- The classification tag `VType` of the C++ (`OTHER`, `CAT_DATA`, `CAT_PTR`). -/
inductive VType where
  | OTHER | CAT_DATA | CAT_PTR
deriving DecidableEq

/-- `checkType` (CatPass.cpp:107): membership in `allCATData` is tested first,
then `allCATPtr`, else `OTHER`. -/
def checkType (data ptr : Finset Val) (v : Val) : VType :=
  if v ∈ data then .CAT_DATA
  else if v ∈ ptr then .CAT_PTR
  else .OTHER

/-- One instruction's contribution to a classification pass
(`collectTypeInfoInBB`, CatPass.cpp:204-307).  The state is the pair
`(allCATData, allCATPtr)`.  The `select`/`OTHER` case mirrors the source
literally: it re-inserts the already-classified operand into the set it is
already a member of (CatPass.cpp:257-268). -/
def collectStepInst (st : Finset Val × Finset Val) (idx : Nat) (i : Inst) :
    Finset Val × Finset Val :=
  match i with
  | .alloca => (st.1, insert (Val.inst idx) st.2)
  | .select _ a b =>
    match checkType st.1 st.2 (Val.inst idx) with
    | .CAT_DATA => (insert b (insert a st.1), st.2)
    | .CAT_PTR => (st.1, insert b (insert a st.2))
    | .OTHER =>
      let step := fun (s : Finset Val × Finset Val) (op : Val) =>
        match checkType s.1 s.2 op with
        | .CAT_DATA => (insert op s.1, s.2)
        | .CAT_PTR => (s.1, insert op s.2)
        | .OTHER => s
      step (step st a) b
  | .store v p =>
    match checkType st.1 st.2 v with
    | .CAT_DATA => (st.1, insert p st.2)
    | .CAT_PTR => (st.1, insert p st.2)
    | .OTHER => st
  | .load p =>
    match checkType st.1 st.2 (Val.inst idx) with
    | .CAT_DATA => (st.1, insert p st.2)
    | .CAT_PTR => (st.1, insert p st.2)
    | .OTHER => st
  | .call cn args _ =>
    match cn with
    | .new => (insert (Val.inst idx) st.1, st.2)
    | .get | .set | .destroy =>
      match args.get? 0 with
      | some a0 => (insert a0 st.1, st.2)
      | none => st
    | .add | .sub => ((args.take 3).foldl (fun s v => insert v s) st.1, st.2)
    | _ => st
  | .other => st

/-- One full pass of the classifier over the block, threading the growing
sets through every instruction in program order. -/
def collectPass (prog : List Inst) (st : Finset Val × Finset Val) :
    Finset Val × Finset Val :=
  prog.enum.foldl (fun s p => collectStepInst s p.1 p.2) st

/-- Fixed-point iteration of the classifier (`collectTypeInfo`,
CatPass.cpp:192-202); the C++ loops until a pass leaves both sets unchanged.
The fuel argument bounds the iteration for Lean's termination checker; the
monotone growth over a finite universe makes any fuel larger than the number
of candidate values sufficient. -/
def collectFix (prog : List Inst) : Nat → Finset Val × Finset Val → Finset Val × Finset Val
  | 0, st => st
  | n + 1, st =>
    let st' := collectPass prog st
    if st' = st then st else collectFix prog n st'

/-- Upper bound on the number of values an instruction can classify. -/
def instValCount : Inst → Nat
  | .alloca => 1
  | .select _ _ _ => 3
  | .store _ _ => 2
  | .load _ => 2
  | .call _ args _ => 1 + args.length
  | .other => 0

/-- Fuel sufficient to reach the classifier fixed point. -/
def collectFuel (prog : List Inst) : Nat :=
  1 + 2 * prog.foldl (fun n i => n + instValCount i) 0

/-- The type-classifier prepass run to fixed point from empty sets. -/
def collectTypeInfo (prog : List Inst) : Finset Val × Finset Val :=
  collectFix prog (collectFuel prog) (∅, ∅)

/-- Concrete program on which the classifier puts one value in both sets:
the `alloca` result is inserted into `allCATPtr`, and the same value, used as
operand 0 of `CAT_get`, is inserted into `allCATData`. -/
def progBothSets : List Inst :=
  [.alloca, .call .get [Val.inst 0] none]

/-- C10: `checkType` resolves the two classification sets with a fixed
precedence — a value inserted into both `allCATData` and `allCATPtr` is always
classified `CAT_DATA`, because the `allCATData` membership test is performed
first; every query returns exactly one tag, characterised by the three
clauses below; and on a concrete program the classifier really does place a
value in both sets, with the query answering `CAT_DATA`. -/
theorem checkType_precedence :
    (∀ (d p : Finset Val) (v : Val), v ∈ d → checkType d p v = .CAT_DATA) ∧
    (∀ (d p : Finset Val) (v : Val), v ∉ d → v ∈ p → checkType d p v = .CAT_PTR) ∧
    (∀ (d p : Finset Val) (v : Val), v ∉ d → v ∉ p → checkType d p v = .OTHER) ∧
    (Val.inst 0 ∈ (collectTypeInfo progBothSets).1 ∧
      Val.inst 0 ∈ (collectTypeInfo progBothSets).2 ∧
      checkType (collectTypeInfo progBothSets).1 (collectTypeInfo progBothSets).2
        (Val.inst 0) = .CAT_DATA) := by
  refine ⟨?_, ?_, ?_, ?_⟩
  · intro d p v hv
    simp [checkType, hv]
  · intro d p v hv hp
    simp [checkType, hv, hp]
  · intro d p v hv hp
    simp [checkType, hv, hp]
  · decide

/-- Witness for C10: the precedence clause evaluated at a concrete input
where the value is a member of both sets. -/
theorem checkType_precedence_witness :
    checkType {Val.arg 0} {Val.arg 0} (Val.arg 0) = .CAT_DATA :=
  checkType_precedence.1 {Val.arg 0} {Val.arg 0} (Val.arg 0) (by decide)

/-! ### Iterating a finite token set

The C++ iterates `std::set`s in their internal (pointer-based) order; every
loop we embed either has an order-independent result or is iterated by the
source in an order the source itself leaves unspecified.  We fix a concrete
computable enumeration of each `Finset` of tokens: insertion sort by an
injective numeric key, lifted to the underlying multiset. -/

/-- A canonically sorted enumeration of a multiset, well defined because two
permutations of each other sort to the same sorted list. -/
def sortedList {α : Type} (r : α → α → Prop) [DecidableRel r] [IsTotal α r]
    [IsTrans α r] [IsAntisymm α r] (m : Multiset α) : List α :=
  Quot.liftOn m (List.insertionSort r)
    (fun l1 l2 h => List.eq_of_perm_of_sorted
      ((List.perm_insertionSort r l1).trans
        ((Quotient.exact (Quotient.sound h)).trans
          (List.perm_insertionSort r l2).symm))
      (List.sorted_insertionSort r l1) (List.sorted_insertionSort r l2))

lemma mem_sortedList {α : Type} (r : α → α → Prop) [DecidableRel r] [IsTotal α r]
    [IsTrans α r] [IsAntisymm α r] (m : Multiset α) (a : α) :
    a ∈ sortedList r m ↔ a ∈ m := by
  induction m using Quotient.inductionOn with
  | h l => exact (List.perm_insertionSort r l).mem_iff

/-- Numeric key of a definition token (injective). -/
def tokKey : DefTok → Nat
  | none => 0
  | some n => n + 1

/-- Total order on definition tokens through their key. -/
def tokLE (a b : DefTok) : Prop := tokKey a ≤ tokKey b

instance : DecidableRel tokLE := fun a b => Nat.decLe _ _

lemma tokKey_inj : ∀ {a b : DefTok}, tokKey a = tokKey b → a = b := by
  intro a b
  cases a <;> cases b <;> simp [tokKey]

instance : IsTrans DefTok tokLE := ⟨fun _ _ _ => Nat.le_trans⟩

instance : IsAntisymm DefTok tokLE :=
  ⟨fun _ _ h1 h2 => tokKey_inj (Nat.le_antisymm h1 h2)⟩

instance : IsTotal DefTok tokLE := ⟨fun _ _ => Nat.le_total _ _⟩

/-- Computable enumeration of a definition-token set. -/
def defsList (defs : Finset DefTok) : List DefTok := sortedList tokLE defs.val

lemma mem_defsList {defs : Finset DefTok} {d : DefTok} :
    d ∈ defsList defs ↔ d ∈ defs := mem_sortedList tokLE defs.val d

lemma defsList_ne_nil_iff {defs : Finset DefTok} :
    defsList defs ≠ [] ↔ defs.Nonempty := by
  constructor
  · intro h
    rcases hl : defsList defs with _ | ⟨d, rest⟩
    · exact absurd hl h
    · exact ⟨d, mem_defsList.1 (hl ▸ List.mem_cons_self d rest)⟩
  · rintro ⟨d, hd⟩ hnil
    have h2 : d ∈ defsList defs := mem_defsList.2 hd
    rw [hnil] at h2
    simp at h2

/-! ### The constant lookup `getIfIsConstant` (CatPass.cpp:760-793) -/

/-- The candidate operand a call definition contributes (CatPass.cpp:770-781):
for a `CAT_new` call it is operand 0, for a `CAT_set` call operand 1, for any
other call — and for a definition that is not a call instruction — `none`. -/
def candidateOfInst : Option Inst → Option Val
  | some (.call .new args _) => args[0]?
  | some (.call .set args _) => args[1]?
  | _ => none

/-- The candidate operand of the definition at index `id` of the program. -/
def candidateOf (prog : List Inst) (id : Nat) : Option Val :=
  candidateOfInst prog[id]?

/-- The per-definition test of `getIfIsConstant`: an `UNKNOWN` definition
(CatPass.cpp:767) and a missing or non-`ConstantInt` candidate
(CatPass.cpp:783) both abort the lookup, i.e. yield `none`; otherwise the
candidate's constant value is produced. -/
def constCandOf (prog : List Inst) (d : DefTok) : Option Int :=
  match d with
  | none => none
  | some id =>
    match candidateOf prog id with
    | some (Val.constInt k) => some k
    | _ => none

/-- The definition-set loop of `getIfIsConstant`: any aborting definition
returns `none`; the first constant is remembered and later constants must
agree with it (CatPass.cpp:786-789). -/
def gcLoop (prog : List Inst) : List DefTok → Option Int → Option Int
  | [], acc => acc
  | d :: rest, acc =>
    match constCandOf prog d with
    | none => none
    | some k =>
      match acc with
      | none => gcLoop prog rest (some k)
      | some c => if c = k then gcLoop prog rest (some c) else none

/-- `getIfIsConstant` (CatPass.cpp:760): iterate the reaching definitions of
the operand; return the common integer constant, or `none` (the `nullptr`
result) when the set is empty, contains `UNKNOWN`, contains a definition that
is not `CAT_new`/`CAT_set` with a `ConstantInt` candidate, or the candidates
disagree. -/
def getIfIsConstant (prog : List Inst) (defs : Finset DefTok) : Option Int :=
  gcLoop prog (defsList defs) none

/-- Helper predicate: definition token `d` is a call whose candidate is the
integer constant `k` — i.e. a `CAT_new` with constant operand 0 or a
`CAT_set` with constant operand 1. -/
def defGivesConst (prog : List Inst) (k : Int) (d : DefTok) : Prop :=
  ∃ i, d = some i ∧
    ((∃ args rt, prog[i]? = some (Inst.call .new args rt) ∧
        args[0]? = some (Val.constInt k)) ∨
      (∃ args rt, prog[i]? = some (Inst.call .set args rt) ∧
        args[1]? = some (Val.constInt k)))

lemma constCandOf_some (prog : List Inst) (i : Nat) :
    constCandOf prog (some i) =
      match candidateOf prog i with
      | some (Val.constInt k) => some k
      | _ => none := rfl

lemma gcLoop_cons (prog : List Inst) (d : DefTok) (rest : List DefTok)
    (acc : Option Int) :
    gcLoop prog (d :: rest) acc =
      match constCandOf prog d with
      | none => none
      | some k =>
        match acc with
        | none => gcLoop prog rest (some k)
        | some c => if c = k then gcLoop prog rest (some c) else none := rfl

lemma defGivesConst_iff_constCand (prog : List Inst) (k : Int) (d : DefTok) :
    defGivesConst prog k d ↔ constCandOf prog d = some k := by
  constructor
  · rintro ⟨i, rfl, h | h⟩
    · obtain ⟨args, rt, hp, ha⟩ := h
      simp [constCandOf_some, candidateOf, hp, candidateOfInst, ha]
    · obtain ⟨args, rt, hp, ha⟩ := h
      simp [constCandOf_some, candidateOf, hp, candidateOfInst, ha]
  · intro hc
    rcases d with _ | i
    · exact absurd hc (by simp [constCandOf])
    refine ⟨i, rfl, ?_⟩
    rcases hcand : candidateOf prog i with _ | cand
    · simp [constCandOf_some, hcand] at hc
    rcases cand with id | n | n | k' | n <;> simp [constCandOf_some, hcand] at hc
    subst hc
    unfold candidateOf at hcand
    rcases hp : prog[i]? with _ | inst
    · rw [hp] at hcand; simp [candidateOfInst] at hcand
    rw [hp] at hcand
    rcases inst with _ | ⟨_, _, _⟩ | ⟨_, _⟩ | _ | ⟨cn, args, rt⟩ | _ <;>
      simp [candidateOfInst] at hcand
    rcases cn <;> simp [candidateOfInst] at hcand
    · exact Or.inl ⟨args, rt, rfl, hcand⟩
    · exact Or.inr ⟨args, rt, rfl, hcand⟩

lemma gcLoop_some_eq (prog : List Inst) :
    ∀ (l : List DefTok) (c k : Int),
      gcLoop prog l (some c) = some k ↔
        c = k ∧ ∀ d ∈ l, constCandOf prog d = some c := by
  intro l
  induction l with
  | nil => intro c k; simp [gcLoop]
  | cons d rest ih =>
    intro c k
    rcases hd : constCandOf prog d with _ | k'
    · constructor
      · intro h
        simp only [gcLoop_cons, hd] at h
        exact Option.noConfusion h
      · rintro ⟨rfl, h⟩
        have h2 := (hd.symm.trans (h d (List.mem_cons_self d rest)))
        exact Option.noConfusion h2
    · by_cases hck : c = k'
      · subst hck
        have hred : gcLoop prog (d :: rest) (some c) = gcLoop prog rest (some c) := by
          rw [gcLoop_cons, hd]
          simp
        rw [hred, ih c k]
        constructor
        · rintro ⟨rfl, h⟩
          refine ⟨rfl, ?_⟩
          intro d2 hd2
          rcases List.mem_cons.1 hd2 with rfl | hmem
          · exact hd
          · exact h d2 hmem
        · rintro ⟨rfl, h⟩
          exact ⟨rfl, fun d2 hd2 => h d2 (List.mem_cons_of_mem d hd2)⟩
      · have hred : gcLoop prog (d :: rest) (some c) = none := by
          rw [gcLoop_cons, hd]
          simp [hck]
        rw [hred]
        constructor
        · intro h
          exact Option.noConfusion h
        · rintro ⟨rfl, h⟩
          have h2 := hd.symm.trans (h d (List.mem_cons_self d rest))
          exact absurd (Option.some_injective _ h2).symm hck

lemma gcLoop_none_eq (prog : List Inst) :
    ∀ (l : List DefTok) (k : Int),
      gcLoop prog l none = some k ↔
        l ≠ [] ∧ ∀ d ∈ l, constCandOf prog d = some k := by
  intro l
  induction l with
  | nil => intro k; simp [gcLoop]
  | cons d rest ih =>
    intro k
    rcases hd : constCandOf prog d with _ | k'
    · constructor
      · intro h
        simp only [gcLoop_cons, hd] at h
        exact Option.noConfusion h
      · rintro ⟨-, h⟩
        have h2 := hd.symm.trans (h d (List.mem_cons_self d rest))
        exact Option.noConfusion h2
    · have hred : gcLoop prog (d :: rest) none = gcLoop prog rest (some k') := by
        rw [gcLoop_cons, hd]
      rw [hred, gcLoop_some_eq]
      constructor
      · rintro ⟨rfl, h⟩
        refine ⟨List.cons_ne_nil d rest, ?_⟩
        intro d2 hd2
        rcases List.mem_cons.1 hd2 with rfl | hmem
        · exact hd
        · exact h d2 hmem
      · rintro ⟨-, h⟩
        have h1 := hd.symm.trans (h d (List.mem_cons_self d rest))
        have : k' = k := Option.some_injective _ h1
        subst this
        exact ⟨rfl, fun d2 hd2 => h d2 (List.mem_cons_of_mem d hd2)⟩

/-- C8: `getIfIsConstant` returns an integer constant `k` iff the definition
set is non-empty and every definition in it is a `CAT_new` call whose operand
0 is the integer constant `k`, or a `CAT_set` call whose operand 1 is the
integer constant `k` (in particular the set contains no `UNKNOWN`, no
`CAT_add`/`CAT_sub`/opaque definition, no non-constant candidate, and all
candidates agree); in every other case (`Option` being two-valued) it returns
`none`. -/
theorem getIfIsConstant_spec (prog : List Inst) (defs : Finset DefTok) (k : Int) :
    getIfIsConstant prog defs = some k ↔
      defs.Nonempty ∧ ∀ d ∈ defs, defGivesConst prog k d := by
  unfold getIfIsConstant
  rw [gcLoop_none_eq, defsList_ne_nil_iff]
  constructor
  · rintro ⟨h1, h2⟩
    exact ⟨h1, fun d hd => (defGivesConst_iff_constCand prog k d).2
      (h2 d (mem_defsList.2 hd))⟩
  · rintro ⟨h1, h2⟩
    exact ⟨h1, fun d hd => (defGivesConst_iff_constCand prog k d).1
      (h2 d (mem_defsList.1 hd))⟩

/-! ### Rewriter pass 1: constant folding and algebraic simplification
(`constantFoldAndAlgSimp`, CatPass.cpp:795-854) -/

/-- Two's-complement wraparound of 64-bit signed integer arithmetic, as
performed by `IRBuilder::CreateAdd`/`CreateSub` when folding two `i64`
`ConstantInt`s. -/
def wrap64 (k : Int) : Int := (k + 2 ^ 63) % 2 ^ 64 - 2 ^ 63

/-- The action pass 1 takes on one instruction.  `setConst dst k` means: an
`i64` constant `k` is built, a call `CAT_set(dst, k)` is inserted immediately
before the instruction, and the instruction is put on the deletion list
(erased after the iteration).  `setGet dst src` means: a new call
`CAT_get(src)` is inserted before the instruction, then a call
`CAT_set(dst, CAT_get(src))`, and the instruction is put on the deletion
list.  `skip` means the instruction is left untouched. -/
inductive P1Act where
  | skip
  | setConst (dst : Val) (k : Int)
  | setGet (dst src : Val)
deriving DecidableEq

/-- The body of pass 1 for the `CAT_add`/`CAT_sub` call at index `id`, with
`rdaAt id` the reaching-definition map `IN[I]` computed by the analysis
(CatPass.cpp:803-848).  The `x - x` check precedes the constant lookups;
then: both operands constant → fold; right operand the constant 0 (left
non-constant) → `CAT_set(dst, CAT_get(a))` for both opcodes; left operand
the constant 0 (right non-constant) → `CAT_set(dst, CAT_get(b))` only for
`CAT_add`. -/
def pass1Action (prog : List Inst) (rdaAt : Nat → Val → Finset DefTok)
    (id : Nat) : P1Act :=
  match prog[id]? with
  | some (.call kind args _) =>
    if kind = .add ∨ kind = .sub then
      match args[0]?, args[1]?, args[2]? with
      | some dst, some a, some b =>
        if kind = .sub ∧ a = b then .setConst dst 0
        else
          match getIfIsConstant prog (rdaAt id a),
              getIfIsConstant prog (rdaAt id b) with
          | some k1, some k2 =>
            .setConst dst (if kind = .add then wrap64 (k1 + k2) else wrap64 (k1 - k2))
          | none, some k2 => if k2 = 0 then .setGet dst a else .skip
          | some k1, none => if k1 = 0 ∧ kind = .add then .setGet dst b else .skip
          | none, none => .skip
      | _, _, _ => .skip
    else .skip
  | _ => .skip

/-- C1: a `CAT_add`/`CAT_sub` call whose two source operands are distinct
values, each with a unique constant reaching definition (`getIfIsConstant`
non-null), is replaced by `CAT_set(dst, k1 + k2)` resp. `CAT_set(dst, k1 - k2)`
inserted before it, the arithmetic being 64-bit two's-complement, and the
call is deleted. -/
theorem pass1_constant_fold (prog : List Inst) (rdaAt : Nat → Val → Finset DefTok)
    (id : Nat) (kind : CName) (dst a b : Val) (args : List Val) (rt : Option Bool)
    (k1 k2 : Int)
    (hkind : kind = .add ∨ kind = .sub)
    (hinst : prog[id]? = some (.call kind args rt))
    (h0 : args[0]? = some dst) (h1 : args[1]? = some a) (h2 : args[2]? = some b)
    (hab : a ≠ b)
    (hc1 : getIfIsConstant prog (rdaAt id a) = some k1)
    (hc2 : getIfIsConstant prog (rdaAt id b) = some k2) :
    pass1Action prog rdaAt id =
      .setConst dst (if kind = .add then wrap64 (k1 + k2) else wrap64 (k1 - k2)) := by
  unfold pass1Action
  rw [hinst]
  simp only [hkind, if_pos, h0, h1, h2]
  have hsub : ¬(kind = .sub ∧ a = b) := fun h => hab h.2
  rw [if_neg hsub, hc1, hc2]

/-- Witness for C1 at a concrete program: `CAT_new 3; CAT_new 4;
CAT_add(r, a, b)` with the reaching-definition map sending the two source
operands to their `CAT_new` definitions folds to `CAT_set(r, 7)`. -/
theorem pass1_constant_fold_witness :
    pass1Action
        [.call .new [.constInt 3] none, .call .new [.constInt 4] none,
          .call .add [.arg 0, .inst 0, .inst 1] none]
        (fun _ v => if v = .inst 0 then {some 0} else if v = .inst 1 then {some 1} else ∅)
        2 = .setConst (.arg 0) (wrap64 (3 + 4)) := by
  have h := pass1_constant_fold
    [.call .new [.constInt 3] none, .call .new [.constInt 4] none,
      .call .add [.arg 0, .inst 0, .inst 1] none]
    (fun _ v => if v = .inst 0 then {some 0} else if v = .inst 1 then {some 1} else ∅)
    2 .add (.arg 0) (.inst 0) (.inst 1) [.arg 0, .inst 0, .inst 1] none 3 4
    (Or.inl rfl) rfl rfl rfl rfl (by decide) (by decide) (by decide)
  simpa using h

/-- C3: a `CAT_sub` whose two source operands are the same value is replaced
by `CAT_set(dst, 0)` and deleted, whatever the reaching-definition state —
the check precedes every constant lookup, so it fires on constant, unknown
and non-constant operands alike. -/
theorem pass1_sub_self (prog : List Inst) (rdaAt : Nat → Val → Finset DefTok)
    (id : Nat) (dst x : Val) (args : List Val) (rt : Option Bool)
    (hinst : prog[id]? = some (.call .sub args rt))
    (h0 : args[0]? = some dst) (h1 : args[1]? = some x) (h2 : args[2]? = some x) :
    pass1Action prog rdaAt id = .setConst dst 0 := by
  unfold pass1Action
  rw [hinst]
  simp [h0, h1, h2]

/-- Witness for C3: `CAT_sub(d, x, x)` on an argument with an `UNKNOWN`
reaching definition still becomes `CAT_set(d, 0)`. -/
theorem pass1_sub_self_witness :
    pass1Action [.call .sub [.arg 0, .arg 1, .arg 1] none]
      (fun _ _ => {none}) 0 = .setConst (.arg 0) 0 :=
  pass1_sub_self [.call .sub [.arg 0, .arg 1, .arg 1] none] (fun _ _ => {none})
    0 (.arg 0) (.arg 1) [.arg 0, .arg 1, .arg 1] none rfl rfl rfl rfl

/-- C7: with exactly one constant operand, pass 1 rewrites
`CAT_add/CAT_sub(dst, a, b)` with `b` the unique constant `0` into
`CAT_set(dst, CAT_get(a))`; it rewrites `CAT_add(dst, a, b)` with `a` the
unique constant `0` into `CAT_set(dst, CAT_get(b))`; but it leaves the
analogous `CAT_sub(dst, a, b)` with `a` the constant `0` untouched. -/
theorem pass1_zero_simplification (prog : List Inst)
    (rdaAt : Nat → Val → Finset DefTok) (id : Nat) (dst a b : Val)
    (args : List Val) (rt : Option Bool) :
    (∀ kind, (kind = .add ∨ kind = .sub) →
      prog[id]? = some (.call kind args rt) →
      args[0]? = some dst → args[1]? = some a → args[2]? = some b →
      getIfIsConstant prog (rdaAt id a) = none →
      getIfIsConstant prog (rdaAt id b) = some 0 →
      pass1Action prog rdaAt id = .setGet dst a) ∧
    (prog[id]? = some (.call .add args rt) →
      args[0]? = some dst → args[1]? = some a → args[2]? = some b →
      getIfIsConstant prog (rdaAt id a) = some 0 →
      getIfIsConstant prog (rdaAt id b) = none →
      pass1Action prog rdaAt id = .setGet dst b) ∧
    (prog[id]? = some (.call .sub args rt) →
      args[0]? = some dst → args[1]? = some a → args[2]? = some b →
      getIfIsConstant prog (rdaAt id a) = some 0 →
      getIfIsConstant prog (rdaAt id b) = none →
      pass1Action prog rdaAt id = .skip) := by
  refine ⟨?_, ?_, ?_⟩
  · intro kind hkind hinst h0 h1 h2 hc1 hc2
    have hcond : ¬(kind = .sub ∧ a = b) := by
      rintro ⟨-, rfl⟩
      rw [hc1] at hc2
      exact Option.noConfusion hc2
    unfold pass1Action
    rw [hinst]
    simp [hkind, h0, h1, h2, hcond, hc1, hc2]
  · intro hinst h0 h1 h2 hc1 hc2
    have hcond : ¬(CName.add = .sub ∧ a = b) := by
      rintro ⟨h, -⟩
      exact CName.noConfusion h
    unfold pass1Action
    rw [hinst]
    simp [h0, h1, h2, hcond, hc1, hc2]
  · intro hinst h0 h1 h2 hc1 hc2
    have hab : a ≠ b := by
      rintro rfl
      rw [hc1] at hc2
      exact Option.noConfusion hc2
    unfold pass1Action
    rw [hinst]
    simp [h0, h1, h2, hab, hc1, hc2]

/-- Witness for C7: both rewriting clauses and the deliberate `CAT_sub`
asymmetry evaluated on concrete programs (`y` an argument with `UNKNOWN`
reaching definition, the constant operand a `CAT_new 0`). -/
theorem pass1_zero_simplification_witness :
    pass1Action [.call .new [.constInt 0] none, .call .sub [.arg 0, .arg 1, .inst 0] none]
        (fun _ v => if v = .inst 0 then {some 0} else {none}) 1 =
      .setGet (.arg 0) (.arg 1) ∧
    pass1Action [.call .new [.constInt 0] none, .call .add [.arg 0, .inst 0, .arg 1] none]
        (fun _ v => if v = .inst 0 then {some 0} else {none}) 1 =
      .setGet (.arg 0) (.arg 1) ∧
    pass1Action [.call .new [.constInt 0] none, .call .sub [.arg 0, .inst 0, .arg 1] none]
        (fun _ v => if v = .inst 0 then {some 0} else {none}) 1 = .skip := by
  refine ⟨?_, ?_, ?_⟩
  · exact (pass1_zero_simplification
      [.call .new [.constInt 0] none, .call .sub [.arg 0, .arg 1, .inst 0] none]
      (fun _ v => if v = .inst 0 then {some 0} else {none}) 1 (.arg 0) (.arg 1)
      (.inst 0) [.arg 0, .arg 1, .inst 0] none).1 .sub (Or.inr rfl) rfl rfl rfl rfl
      (by decide) (by decide)
  · exact (pass1_zero_simplification
      [.call .new [.constInt 0] none, .call .add [.arg 0, .inst 0, .arg 1] none]
      (fun _ v => if v = .inst 0 then {some 0} else {none}) 1 (.arg 0) (.inst 0)
      (.arg 1) [.arg 0, .inst 0, .arg 1] none).2.1 rfl rfl rfl rfl (by decide)
      (by decide)
  · exact (pass1_zero_simplification
      [.call .new [.constInt 0] none, .call .sub [.arg 0, .inst 0, .arg 1] none]
      (fun _ v => if v = .inst 0 then {some 0} else {none}) 1 (.arg 0) (.inst 0)
      (.arg 1) [.arg 0, .inst 0, .arg 1] none).2.2 rfl rfl rfl rfl (by decide)
      (by decide)

/-! ### Worklist change detection (`RDAinBB`, CatPass.cpp:316-323 and 662-681)

The driver `RDA` (CatPass.cpp:902-921) enqueues all CFG successors of a block
exactly when `RDAinBB` returns `true`.  `RDAinBB` bases that decision on the
terminator's saved and freshly computed `OUT` reaching-definition maps alone;
we represent such a map concretely as an association list from values to
definition-token sets (`std::map<Value*, std::set<Instruction*>>`). -/

/-- Association-list representation of a terminator `OUT` RDA map. -/
abbrev RdaOutRepr := List (Val × Finset DefTok)

/-- The flattening loop of `RDAinBB` (CatPass.cpp:321-323, 667-669): every
definition token of every value's set is poured into one set, forgetting
which value it belonged to. -/
def flattenRdaOut (m : RdaOutRepr) : Finset DefTok :=
  m.foldl (fun acc p => acc ∪ p.2) ∅

/-- Lookup of one value's definition set in the represented map; a missing
key denotes the empty set. -/
def lookupRda (m : RdaOutRepr) (v : Val) : Finset DefTok :=
  ((m.find? fun p => p.1 == v).map Prod.snd).getD ∅

/-- Extensional equality of two represented RDA maps. -/
def RdaMapEq (m1 m2 : RdaOutRepr) : Prop :=
  ∀ v, lookupRda m1 v = lookupRda m2 v

/-- The change decision of `RDAinBB` (CatPass.cpp:663-680): `true` when the
block was never analyzed (no saved terminator `OUT`), otherwise the flattened
old and new definition-token sets are compared by cardinality and then by
membership.  The saved and new alias and points-to components are also in
scope at this point of the source but are never consulted. -/
def rdaInBBChanged (first : Bool) (oldRda newRda : RdaOutRepr)
    (oldAli newAli : List (Val × Finset Val))
    (oldPt newPt : List (Val × Finset PtTok)) : Bool :=
  if first then true
  else
    let oldOut := flattenRdaOut oldRda
    let newOut := flattenRdaOut newRda
    if oldOut.card ≠ newOut.card then true
    else if oldOut ⊆ newOut then false else true

/-- C6 counterexample: with `firstTime = false`, an old and a new terminator
RDA map that genuinely differ as maps (the definition set of `arg 0` grew
from one to two tokens) but whose flattened token sets coincide; the block is
reported unchanged, so its successors are not enqueued, refuting the claim
that any cardinality-or-membership difference of the RDA component triggers
re-enqueueing. -/
theorem rdaChange_counterexample :
    rdaInBBChanged false
        [(Val.arg 0, {some 0}), (Val.arg 1, {some 1})]
        [(Val.arg 0, {some 0, some 1}), (Val.arg 1, {some 1})] [] [] [] [] = false ∧
      ¬ RdaMapEq [(Val.arg 0, {some 0}), (Val.arg 1, {some 1})]
        [(Val.arg 0, {some 0, some 1}), (Val.arg 1, {some 1})] := by
  constructor
  · decide
  · intro h
    have h0 := h (Val.arg 0)
    revert h0
    decide

/-- C6 (amended): successors are enqueued iff the block was never analyzed
before or the *flattened* definition-token set of the terminator's new RDA
`OUT` — the union of the sets of all values, forgetting the per-value map
structure — differs from the saved one; the alias and points-to components
(quantified here on both sides) never influence the decision. -/
theorem rdaChange_flattened (first : Bool) (oldRda newRda : RdaOutRepr)
    (oldAli newAli : List (Val × Finset Val))
    (oldPt newPt : List (Val × Finset PtTok)) :
    rdaInBBChanged first oldRda newRda oldAli newAli oldPt newPt = true ↔
      (first = true ∨ flattenRdaOut oldRda ≠ flattenRdaOut newRda) := by
  cases first
  · simp only [rdaInBBChanged, if_neg Bool.false_ne_true, Bool.false_eq_true,
      false_or]
    by_cases hcard : (flattenRdaOut oldRda).card = (flattenRdaOut newRda).card
    · by_cases hsub : flattenRdaOut oldRda ⊆ flattenRdaOut newRda
      · have heq : flattenRdaOut oldRda = flattenRdaOut newRda :=
          Finset.eq_of_subset_of_card_le hsub (le_of_eq hcard.symm)
        simp [hcard, hsub, heq]
      · have hne : flattenRdaOut oldRda ≠ flattenRdaOut newRda := by
          intro h
          exact hsub (h ▸ Finset.Subset.refl _)
        simp [hcard, hsub, hne]
    · have hne : flattenRdaOut oldRda ≠ flattenRdaOut newRda := by
        intro h
        exact hcard (congrArg Finset.card h)
      simp [hcard, hne]
  · simp [rdaInBBChanged]

/-! ### Keyed enumerations for values and points-to tokens -/

/-- Injective numeric encoding of an integer. -/
def intKey : Int → Nat
  | .ofNat n => 2 * n
  | .negSucc n => 2 * n + 1

lemma intKey_inj : ∀ {a b : Int}, intKey a = intKey b → a = b := by
  intro a b h
  cases a <;> cases b <;> simp [intKey] at h ⊢ <;> omega

/-- Injective numeric key of a value. -/
def valKey : Val → Nat
  | .inst i => 5 * i
  | .arg n => 5 * n + 1
  | .glob n => 5 * n + 2
  | .constInt k => 5 * intKey k + 3
  | .otherVal n => 5 * n + 4

lemma valKey_inj : ∀ {a b : Val}, valKey a = valKey b → a = b := by
  intro a b h
  cases a <;> cases b <;> simp [valKey] at h ⊢ <;> try omega
  exact intKey_inj (by omega)

/-- Injective numeric key of a points-to token. -/
def ptKey : PtTok → Nat
  | none => 0
  | some v => valKey v + 1

lemma ptKey_inj : ∀ {a b : PtTok}, ptKey a = ptKey b → a = b := by
  intro a b h
  cases a <;> cases b <;> simp [ptKey] at h ⊢
  · exact valKey_inj (by omega)

/-- Total order on values through their key. -/
def valLE (a b : Val) : Prop := valKey a ≤ valKey b

instance : DecidableRel valLE := fun a b => Nat.decLe _ _

instance : IsTrans Val valLE := ⟨fun _ _ _ => Nat.le_trans⟩

instance : IsAntisymm Val valLE :=
  ⟨fun _ _ h1 h2 => valKey_inj (Nat.le_antisymm h1 h2)⟩

instance : IsTotal Val valLE := ⟨fun _ _ => Nat.le_total _ _⟩

/-- Total order on points-to tokens through their key. -/
def ptLE (a b : PtTok) : Prop := ptKey a ≤ ptKey b

instance : DecidableRel ptLE := fun a b => Nat.decLe _ _

instance : IsTrans PtTok ptLE := ⟨fun _ _ _ => Nat.le_trans⟩

instance : IsAntisymm PtTok ptLE :=
  ⟨fun _ _ h1 h2 => ptKey_inj (Nat.le_antisymm h1 h2)⟩

instance : IsTotal PtTok ptLE := ⟨fun _ _ => Nat.le_total _ _⟩

/-- Computable enumeration of a value set. -/
def valsList (s : Finset Val) : List Val := sortedList valLE s.val

lemma mem_valsList {s : Finset Val} {v : Val} :
    v ∈ valsList s ↔ v ∈ s := mem_sortedList valLE s.val v

/-- Computable enumeration of a points-to token set. -/
def ptsList (s : Finset PtTok) : List PtTok := sortedList ptLE s.val

lemma mem_ptsList {s : Finset PtTok} {t : PtTok} :
    t ∈ ptsList s ↔ t ∈ s := mem_sortedList ptLE s.val t

/-! ### Analyzer state and transfer helpers (CatPass.cpp:98-190) -/

/-- The per-program-point analyzer state: the two classification sets
(`allCATData` / `allCATPtr`, which grow during the fixed point through the
dynamic return-type classification), and the three lattice maps — reaching
definitions, must-alias, points-to.  A key absent from one of the C++
`std::map`s behaves exactly as a key mapped to the empty set at every read
the analyzer performs, so the maps are embedded as total functions. -/
structure AState where
  data : Finset Val
  ptr : Finset Val
  rda : Val → Finset DefTok
  ali : Val → Finset Val
  pt : Val → Finset PtTok

/-- `mergeAliasInfo` (CatPass.cpp:98-105): symmetrically merge the alias
class of `source` (read from the IN map) into `target` in the OUT map. -/
def mergeAliasInfo (aliIn : Val → Finset Val) (source target : Val)
    (out : Val → Finset Val) : Val → Finset Val :=
  fun a =>
    if a = target then out a ∪ aliIn source
    else if a ∈ aliIn source then insert target (out a)
    else out a

/-- `resetAliasInfo` (CatPass.cpp:117-123): erase `v` from the class of each
of its IN-aliases, then reset `v`'s own class to `{v}`.  At every call site
of the source the OUT map still equals the IN map, so a single map is
threaded. -/
def resetAliasInfo (ali : Val → Finset Val) (v : Val) : Val → Finset Val :=
  fun a =>
    if a = v then {v}
    else if a ∈ ali v then (ali a).erase v
    else ali a

/-- The alias-class read of `addDef`/`addPointTo` (CatPass.cpp:127-131,
148-152): a value with no (equivalently, an empty) alias entry is recovered
to the singleton `{v}` (with a diagnostic warning in the source). -/
def aliasLookup (ali : Val → Finset Val) (v : Val) : Finset Val :=
  if ali v = ∅ then {v} else ali v

/-- `addDef` (CatPass.cpp:125-138): insert the definition into the set of
every alias of `v`.  The cache write is omitted: the cache is never read
(the caching path of `constantProp` is commented out in the source). -/
def addDef (v : Val) (d : DefTok) (ali : Val → Finset Val)
    (rda : Val → Finset DefTok) : Val → Finset DefTok :=
  fun a => if a ∈ aliasLookup ali v then insert d (rda a) else rda a

/-- `setDef` (CatPass.cpp:140-144): clear the definition set of `v` itself
— and of no other value — then `addDef`. -/
def setDef (v : Val) (d : DefTok) (ali : Val → Finset Val)
    (rda : Val → Finset DefTok) : Val → Finset DefTok :=
  addDef v d ali (fun a => if a = v then ∅ else rda a)

/-- `addPointTo` (CatPass.cpp:146-156): insert the pointed-to token into the
set of every alias of `p`. -/
def addPointTo (p : Val) (t : PtTok) (ali : Val → Finset Val)
    (pt : Val → Finset PtTok) : Val → Finset PtTok :=
  fun a => if a ∈ aliasLookup ali p then insert t (pt a) else pt a

/-- `setPointTo` (CatPass.cpp:158-162): clear the points-to set of `p`
itself — and of no other value — then `addPointTo`. -/
def setPointTo (p : Val) (t : PtTok) (ali : Val → Finset Val)
    (pt : Val → Finset PtTok) : Val → Finset PtTok :=
  addPointTo p t ali (fun a => if a = p then ∅ else pt a)

/-- Inner loop of `findAllPossibleCATData` over one points-to set. -/
def findAllLoop (data ptr : Finset Val) (recur : Val → Finset PtTok) :
    List PtTok → Finset PtTok → Finset PtTok
  | [], acc => acc
  | ptd :: rest, acc =>
    findAllLoop data ptr recur rest
      (match ptd with
       | none => insert none acc
       | some q =>
         match checkType data ptr q with
         | .CAT_DATA => insert (some q) acc
         | .OTHER => acc
         | .CAT_PTR => acc ∪ recur q)

/-- `findAllPossibleCATData` (CatPass.cpp:164-190): transitively resolve a
pointer's points-to set through CAT_PTR chains, collecting reachable
CAT_DATA values and preserving `UNKNOWN`.  The C++ recursion has no
termination guard (a cyclic points-to chain would recurse forever); the fuel
argument bounds the depth in the embedding. -/
def findAllPossibleCATData (data ptr : Finset Val) (pt : Val → Finset PtTok) :
    Nat → Val → Finset PtTok
  | 0, _ => ∅
  | fuel + 1, p =>
    findAllLoop data ptr (fun q => findAllPossibleCATData data ptr pt fuel q)
      (ptsList (pt p)) ∅

/-- The alias part of the load transfer (CatPass.cpp:508-518): for every
non-`UNKNOWN` pointed value, symmetrically merge its IN alias class with the
load result. -/
def loadAliasMerge (aliIn : Val → Finset Val) (r : Val)
    (out : Val → Finset Val) (pts : List PtTok) : Val → Finset Val :=
  pts.foldl
    (fun acc ptd =>
      match ptd with
      | none => acc
      | some q => mergeAliasInfo aliIn q r acc) out

/-- The RDA merge of a CAT_DATA load result (CatPass.cpp:522-531):
`UNKNOWN` pointed values contribute `UNKNOWN`; pointed values not classified
CAT_DATA are skipped with a warning; the rest contribute their IN
reaching-definition sets. -/
def loadRdaMerge (data ptr : Finset Val) (rdaIn : Val → Finset DefTok)
    (pts : List PtTok) : Finset DefTok :=
  pts.foldl
    (fun acc ptd =>
      match ptd with
      | none => insert none acc
      | some q =>
        match checkType data ptr q with
        | .CAT_DATA => acc ∪ rdaIn q
        | _ => acc) ∅

/-- The points-to merge of a CAT_PTR load result (CatPass.cpp:532-541). -/
def loadPtMerge (data ptr : Finset Val) (ptIn : Val → Finset PtTok)
    (pts : List PtTok) : Finset PtTok :=
  pts.foldl
    (fun acc ptd =>
      match ptd with
      | none => insert none acc
      | some q =>
        match checkType data ptr q with
        | .CAT_PTR => acc ∪ ptIn q
        | _ => acc) ∅

/-- One iteration of the result-RDA merge of a CAT_DATA opaque-call result
(CatPass.cpp:624-632): `UNKNOWN` inserts `UNKNOWN`; a data value pours its
current OUT definition set into the result's (evolving) set. -/
def opaqueDataStep (self : Val) (m : Val → Finset DefTok) (d : PtTok) :
    Val → Finset DefTok :=
  match d with
  | none => fun v => if v = self then insert none (m self) else m v
  | some dv => fun v => if v = self then m self ∪ m dv else m v

/-- One iteration of the result-points-to merge of a CAT_PTR opaque-call
result (CatPass.cpp:637-642). -/
def opaquePtrStep (self : Val) (m : Val → Finset PtTok) (p : Val) :
    Val → Finset PtTok :=
  fun v => if v = self then m self ∪ m p else m v

/-- The opaque-call transfer (CatPass.cpp:577-647): collect the possibly
passed-in CAT data and CAT pointers from the arguments; weakly update the
points-to sets of modified pointers with every collected datum; strongly
update (to `{UNKNOWN}`) the definition set of every modified datum; perform
the dynamic return-type classification; and merge per-argument state into a
classified result.  A `getSize` call on the null `UNKNOWN` token would
dereference null in the source, so only non-null tokens reach the oracle. -/
def opaqueCallTransfer (fuel : Nat) (oracle : Nat → Val → Bool) (id : Nat)
    (args : List Val) (rt : Option Bool) (st : AState) : AState :=
  let self := Val.inst id
  let passed := args.foldl
    (fun (acc : Finset PtTok × Finset Val) arg =>
      match checkType st.data st.ptr arg with
      | .CAT_DATA => (insert (some arg) acc.1, acc.2)
      | .OTHER => acc
      | .CAT_PTR =>
        (acc.1 ∪ findAllPossibleCATData st.data st.ptr st.pt fuel arg,
          insert arg acc.2))
    (∅, ∅)
  let pData := passed.1
  let pPtr := passed.2
  let pt1 := (valsList pPtr).foldl
    (fun ptAcc p =>
      if oracle id p then
        (ptsList pData).foldl (fun pa d => addPointTo p d st.ali pa) ptAcc
      else ptAcc) st.pt
  let rda1 := (ptsList pData).foldl
    (fun rAcc d =>
      match d with
      | some dv => if oracle id dv then setDef dv none st.ali rAcc else rAcc
      | none => rAcc) st.rda
  let data1 := if rt = some true then insert self st.data else st.data
  let ptr1 := if rt = some false then insert self st.ptr else st.ptr
  match checkType data1 ptr1 self with
  | .CAT_DATA =>
    let ali2 := (ptsList pData).foldl
      (fun aAcc d =>
        match d with
        | none => aAcc
        | some dv => mergeAliasInfo st.ali dv self aAcc)
      (resetAliasInfo st.ali self)
    let rda2 := (ptsList pData).foldl (opaqueDataStep self)
      (fun v => if v = self then ∅ else rda1 v)
    { data := data1, ptr := ptr1, rda := rda2, ali := ali2, pt := pt1 }
  | .CAT_PTR =>
    let ali2 := (valsList pPtr).foldl
      (fun aAcc p => mergeAliasInfo st.ali p self aAcc)
      (resetAliasInfo st.ali self)
    let pt2 := (valsList pPtr).foldl (opaquePtrStep self)
      (fun v => if v = self then ∅ else pt1 v)
    { data := data1, ptr := ptr1, rda := rda1, ali := ali2, pt := pt2 }
  | .OTHER => { data := data1, ptr := ptr1, rda := rda1, ali := st.ali, pt := pt1 }

/-- The transfer of a call instruction (CatPass.cpp:554-647), dispatched on
the callee name: `CAT_new` resets the result's alias class and strongly
defines it; `CAT_set`/`CAT_add`/`CAT_sub` strongly define operand 0;
`CAT_get` is a no-op (its caching path is commented out); `CAT_destroy`,
`printf` and `llvm.lifetime*` are exempt; every other callee is opaque. -/
def catCallTransfer (fuel : Nat) (oracle : Nat → Val → Bool) (id : Nat)
    (cn : CName) (args : List Val) (rt : Option Bool) (st : AState) : AState :=
  let self := Val.inst id
  match cn with
  | .new =>
    let ali2 := resetAliasInfo st.ali self
    { st with ali := ali2, rda := setDef self (some id) ali2 st.rda }
  | .set | .add | .sub =>
    match args[0]? with
    | some gen => { st with rda := setDef gen (some id) st.ali st.rda }
    | none => st
  | .get => st
  | .destroy => st
  | .printfName => st
  | .lifetime => st
  | .miscFn _ => opaqueCallTransfer fuel oracle id args rt st

/-- The per-instruction transfer function (the body of the loop of
`RDAinBB`, CatPass.cpp:384-660), producing the OUT state from the IN state.
A non-pointer-typed `select`, a `store`/`load` through a pointer not
classified CAT_PTR, an `alloca` not classified CAT_PTR, and every
unrecognised instruction leave the state unchanged. -/
def transfer (fuel : Nat) (oracle : Nat → Val → Bool) (id : Nat) (inst : Inst)
    (st : AState) : AState :=
  let self := Val.inst id
  match inst with
  | .alloca =>
    if checkType st.data st.ptr self = .CAT_PTR then
      { st with ali := resetAliasInfo st.ali self,
                pt := fun v => if v = self then ∅ else st.pt v }
    else st
  | .select ptrTy a b =>
    if ptrTy then
      let ali2 := mergeAliasInfo st.ali b self
        (mergeAliasInfo st.ali a self (resetAliasInfo st.ali self))
      match checkType st.data st.ptr self with
      | .CAT_DATA =>
        { st with ali := ali2,
                  rda := fun v => if v = self then st.rda a ∪ st.rda b else st.rda v }
      | .CAT_PTR =>
        { st with ali := ali2,
                  pt := fun v => if v = self then st.pt a ∪ st.pt b else st.pt v }
      | .OTHER => { st with ali := ali2 }
    else st
  | .store v p =>
    if checkType st.data st.ptr p = .CAT_PTR then
      { st with pt := setPointTo p (some v) st.ali st.pt }
    else st
  | .load p =>
    if checkType st.data st.ptr p = .CAT_PTR then
      let ali2 := loadAliasMerge st.ali self (resetAliasInfo st.ali self)
        (ptsList (st.pt p))
      let rda2 :=
        match checkType st.data st.ptr self with
        | .CAT_DATA => fun v =>
            if v = self then loadRdaMerge st.data st.ptr st.rda (ptsList (st.pt p))
            else st.rda v
        | _ => st.rda
      let pt2 :=
        match checkType st.data st.ptr self with
        | .CAT_PTR => fun v =>
            if v = self then loadPtMerge st.data st.ptr st.pt (ptsList (st.pt p))
            else st.pt v
        | _ => st.pt
      let pt3 := fun v => if v = p then (pt2 p).erase none else pt2 v
      let pt4 := addPointTo p (some self) st.ali pt3
      { st with ali := ali2, rda := rda2, pt := pt4 }
    else st
  | .call cn args rt => catCallTransfer fuel oracle id cn args rt st
  | .other => st

/-- The entry seeding of the analysis (CatPass.cpp:345-381): function
parameters and module globals (here one list `params`) classified CAT_DATA
get the reaching definition `{UNKNOWN}`, those classified CAT_PTR the
points-to set `{UNKNOWN}`; every classified value starts in its own
singleton alias class. -/
def initState (data0 ptr0 : Finset Val) (params : List Val) : AState :=
  { data := data0, ptr := ptr0,
    rda := fun v =>
      if v ∈ params ∧ checkType data0 ptr0 v = .CAT_DATA then {none} else ∅,
    pt := fun v =>
      if v ∈ params ∧ checkType data0 ptr0 v = .CAT_PTR then {none} else ∅,
    ali := fun v => if v ∈ data0 ∪ ptr0 then {v} else ∅ }

/-- The stored program-point states of the straight-line analysis of a
single (entry) block: index `i` holds `IN` of instruction `i`; index `i + 1`
holds its `OUT` (CatPass.cpp:384-660 stores both maps for every
instruction). -/
def runStates (fuel : Nat) (oracle : Nat → Val → Bool) (prog : List Inst)
    (data0 ptr0 : Finset Val) (params : List Val) : List AState :=
  List.scanl (fun st p => transfer fuel oracle p.1 p.2 st)
    (initState data0 ptr0 params) prog.enum

/-- Indexing of the stored states. -/
def stateAt (l : List AState) (i : Nat) : AState := l.getD i (initState ∅ ∅ [])

/-- The full straight-line pipeline: the classifier prepass feeds the
analysis (`runOnFunction`, CatPass.cpp:926-945: `collectTypeInfo(); RDA();`). -/
def analysisStates (fuel : Nat) (oracle : Nat → Val → Bool) (prog : List Inst)
    (params : List Val) : List AState :=
  runStates fuel oracle prog (collectTypeInfo prog).1 (collectTypeInfo prog).2 params

/-- The RDA `IN` map of instruction `id` as computed by the pipeline. -/
def rdaInAt (fuel : Nat) (oracle : Nat → Val → Bool) (prog : List Inst)
    (params : List Val) (id : Nat) : Val → Finset DefTok :=
  (stateAt (analysisStates fuel oracle prog params) id).rda

/-! ### C4: the CAT-write transfer is a strong update only on the first
operand itself (`setDef`, CatPass.cpp:140-144 clears `curOUT[v]` alone) -/

/-- A state with two mutually aliased CAT data values (`inst 0` and `arg 0`),
both with the reaching definition `{call 0}`. -/
def c4State : AState :=
  { data := {Val.inst 0, Val.arg 0}, ptr := ∅,
    rda := fun v => if v = Val.inst 0 ∨ v = Val.arg 0 then {some 0} else ∅,
    ali := fun v =>
      if v = Val.inst 0 ∨ v = Val.arg 0 then {Val.inst 0, Val.arg 0} else ∅,
    pt := fun _ => ∅ }

/-- C4 counterexample: after the transfer of `CAT_set(x, 7)` (call index 3)
on a state where `arg 0` is in the must-alias class of `x = inst 0` with
prior definition set `{call 0}`, the OUT definition set of `arg 0` is
`{call 0, call 3}`, not the claimed singleton `{call 3}`: `setDef` clears
only `x`'s own set and merely inserts into the aliases' sets. -/
theorem catWrite_strong_update_counterexample :
    Val.arg 0 ∈ c4State.ali (Val.inst 0) ∧
      (transfer 0 (fun _ _ => false) 3
          (.call .set [Val.inst 0, Val.constInt 7] none) c4State).rda
          (Val.arg 0) ≠ ({some 3} : Finset DefTok) := by
  decide

/-- C4 (amended): after the transfer of a `CAT_set`/`CAT_add`/`CAT_sub` call
with first operand `x` (whose alias class contains `x`, the analyzer's
invariant), the OUT definition set of `x` itself is exactly `{this call}` —
a strong update — while every *other* member `a` of the must-alias class
receives a weak update: its OUT set is `IN[a] ∪ {this call}`. -/
theorem catWrite_strong_update_amended (fuel : Nat) (oracle : Nat → Val → Bool)
    (id : Nat) (cn : CName) (args : List Val) (rt : Option Bool) (x : Val)
    (st : AState)
    (hcn : cn = .set ∨ cn = .add ∨ cn = .sub)
    (h0 : args[0]? = some x)
    (hx : x ∈ st.ali x) :
    (transfer fuel oracle id (.call cn args rt) st).rda x = {some id} ∧
      ∀ a ∈ st.ali x, a ≠ x →
        (transfer fuel oracle id (.call cn args rt) st).rda a =
          insert (some id) (st.rda a) := by
  have hne : st.ali x ≠ ∅ := Finset.ne_empty_of_mem hx
  have htr : (transfer fuel oracle id (.call cn args rt) st).rda =
      setDef x (some id) st.ali st.rda := by
    rcases hcn with rfl | rfl | rfl <;> simp [transfer, catCallTransfer, h0]
  rw [htr]
  have hlk : aliasLookup st.ali x = st.ali x := by
    unfold aliasLookup
    rw [if_neg hne]
  constructor
  · simp [setDef, addDef, hlk, hx]
  · intro a ha hax
    simp [setDef, addDef, hlk, ha, hax]

/-- Witness for the amended C4 at the concrete state of the counterexample:
`x` itself is strongly updated, the aliased `arg 0` weakly. -/
theorem catWrite_strong_update_amended_witness :
    (transfer 0 (fun _ _ => false) 3
        (.call .set [Val.inst 0, Val.constInt 7] none) c4State).rda
        (Val.inst 0) = {some 3} ∧
      (transfer 0 (fun _ _ => false) 3
          (.call .set [Val.inst 0, Val.constInt 7] none) c4State).rda
          (Val.arg 0) = insert (some 3) (c4State.rda (Val.arg 0)) := by
  have h := catWrite_strong_update_amended 0 (fun _ _ => false) 3 .set
    [Val.inst 0, Val.constInt 7] none (Val.inst 0) c4State (Or.inl rfl) rfl
    (by decide)
  exact ⟨h.1, h.2 (Val.arg 0) (by decide) (by decide)⟩

/-! ### C5: the store transfer is a strong update only on the pointer
operand itself (`setPointTo`, CatPass.cpp:158-162 clears `curPtOUT[ptr]`
alone) -/

/-- A state with two mutually aliased CAT pointers (`arg 0` and `arg 1`),
where `arg 1` already points to `glob 0`. -/
def c5State : AState :=
  { data := ∅, ptr := {Val.arg 0, Val.arg 1},
    rda := fun _ => ∅,
    ali := fun v =>
      if v = Val.arg 0 ∨ v = Val.arg 1 then {Val.arg 0, Val.arg 1} else ∅,
    pt := fun v => if v = Val.arg 1 then {some (Val.glob 0)} else ∅ }

/-- C5 counterexample: after the transfer of `store (glob 1), (arg 0)` on a
state where `arg 1` must-aliases the pointer `arg 0` and already points to
`glob 0`, the OUT points-to set of `arg 1` is `{glob 0, glob 1}`, not the
claimed singleton `{glob 1}`: `setPointTo` clears only the pointer operand's
own set and merely inserts into the aliases' sets. -/
theorem store_strong_update_counterexample :
    Val.arg 1 ∈ c5State.ali (Val.arg 0) ∧
      (transfer 0 (fun _ _ => false) 2 (.store (Val.glob 1) (Val.arg 0))
          c5State).pt (Val.arg 1) ≠ ({some (Val.glob 1)} : Finset PtTok) := by
  decide

/-- C5 (amended): after the transfer of `store v, p` with `p` classified
CAT_PTR (and `p` in its own alias class), the OUT points-to set of `p`
itself is exactly `{v}` — a strong update — while every other member `a` of
the must-alias class receives a weak update `IN[a] ∪ {v}`; and when `p` is
not classified CAT_PTR the store leaves the whole state unchanged. -/
theorem store_strong_update_amended (fuel : Nat) (oracle : Nat → Val → Bool)
    (id : Nat) (v p : Val) (st : AState) :
    (checkType st.data st.ptr p = .CAT_PTR → p ∈ st.ali p →
      (transfer fuel oracle id (.store v p) st).pt p = {some v} ∧
        ∀ a ∈ st.ali p, a ≠ p →
          (transfer fuel oracle id (.store v p) st).pt a =
            insert (some v) (st.pt a)) ∧
    (checkType st.data st.ptr p ≠ .CAT_PTR →
      transfer fuel oracle id (.store v p) st = st) := by
  constructor
  · intro hty hp
    have hne : st.ali p ≠ ∅ := Finset.ne_empty_of_mem hp
    have htr : (transfer fuel oracle id (.store v p) st).pt =
        setPointTo p (some v) st.ali st.pt := by
      simp [transfer, hty]
    rw [htr]
    have hlk : aliasLookup st.ali p = st.ali p := by
      unfold aliasLookup
      rw [if_neg hne]
    constructor
    · simp [setPointTo, addPointTo, hlk, hp]
    · intro a ha hap
      simp [setPointTo, addPointTo, hlk, ha, hap]
  · intro hty
    simp [transfer, hty]

/-- Witness for the amended C5 at the concrete state of the counterexample,
plus the no-update clause on a state where the pointer is unclassified. -/
theorem store_strong_update_amended_witness :
    ((transfer 0 (fun _ _ => false) 2 (.store (Val.glob 1) (Val.arg 0))
        c5State).pt (Val.arg 0) = {some (Val.glob 1)} ∧
      (transfer 0 (fun _ _ => false) 2 (.store (Val.glob 1) (Val.arg 0))
          c5State).pt (Val.arg 1) =
        insert (some (Val.glob 1)) (c5State.pt (Val.arg 1))) ∧
      transfer 0 (fun _ _ => false) 2 (.store (Val.glob 1) (Val.glob 2))
        c5State = c5State := by
  constructor
  · have h := (store_strong_update_amended 0 (fun _ _ => false) 2 (Val.glob 1)
      (Val.arg 0) c5State).1 (by decide) (by decide)
    exact ⟨h.1, h.2 (Val.arg 1) (by decide) (by decide)⟩
  · exact (store_strong_update_amended 0 (fun _ _ => false) 2 (Val.glob 1)
      (Val.glob 2) c5State).2 (by decide)

/-! ### Rewriter pass 2: constant propagation (`constantProp`,
CatPass.cpp:856-900) -/

/-- The action pass 2 takes on a `CAT_get` call: `some k` means every use of
the call is replaced by the constant `k` and the call is deleted
(CatPass.cpp:878-883); `none` means the call is left untouched — the
redundant-get cache path (CatPass.cpp:885-893) is commented out, so no other
replacement can occur. -/
def pass2Action (prog : List Inst) (rdaAt : Nat → Val → Finset DefTok)
    (id : Nat) : Option Int :=
  match prog[id]? with
  | some (.call .get args _) =>
    match args[0]? with
    | some x => getIfIsConstant prog (rdaAt id x)
    | none => none
  | _ => none

/-- The two-instruction program `CAT_new(k); CAT_get` on the fresh box. -/
def progNewGet (k : Int) : List Inst :=
  [.call .new [.constInt k] none, .call .get [.inst 0] none]

/-- C2: pass 2 of the rewriter acts on a `CAT_get(x)` exactly as
`getIfIsConstant(x, IN)` dictates — a constant `k` replaces all uses and
deletes the call, `none` leaves it untouched (the cache path being
disabled); and on the concrete program `CAT_new(k)` immediately followed by
`CAT_get` on that box, the full pipeline (classifier, analysis, pass 2)
replaces the get by `k`, for every `k`. -/
theorem constantProp_spec :
    (∀ (prog : List Inst) (rdaAt : Nat → Val → Finset DefTok) (id : Nat)
      (x : Val) (args : List Val) (rt : Option Bool),
      prog[id]? = some (.call .get args rt) → args[0]? = some x →
      pass2Action prog rdaAt id = getIfIsConstant prog (rdaAt id x)) ∧
    (∀ k : Int,
      pass2Action (progNewGet k)
        (rdaInAt 1 (fun _ _ => false) (progNewGet k) []) 1 = some k) := by
  constructor
  · intro prog rdaAt id x args rt hinst h0
    unfold pass2Action
    rw [hinst]
    simp [h0]
  · intro k
    have hrda : rdaInAt 1 (fun _ _ => false) (progNewGet k) [] 1 (Val.inst 0) =
        {some 0} := by rfl
    have hstep : pass2Action (progNewGet k)
        (rdaInAt 1 (fun _ _ => false) (progNewGet k) []) 1 =
        getIfIsConstant (progNewGet k)
          (rdaInAt 1 (fun _ _ => false) (progNewGet k) [] 1 (Val.inst 0)) := by
      rfl
    rw [hstep, hrda]
    have hlist : defsList ({some 0} : Finset DefTok) = [some 0] := by decide
    unfold getIfIsConstant
    rw [hlist]
    simp [gcLoop, constCandOf, candidateOf, candidateOfInst, progNewGet]

/-- Witness for C2: the pass-2 characterisation applied to a one-instruction
program (a `CAT_get` on an argument with no reaching definitions), and the
concrete `CAT_new 7; CAT_get` pipeline run. -/
theorem constantProp_spec_witness :
    pass2Action [.call .get [.arg 0] none] (fun _ _ => ∅) 0 =
      getIfIsConstant [.call .get [.arg 0] none]
        ((fun _ _ => (∅ : Finset DefTok)) 0 (Val.arg 0)) ∧
      pass2Action (progNewGet 7)
        (rdaInAt 1 (fun _ _ => false) (progNewGet 7) []) 1 = some 7 :=
  ⟨constantProp_spec.1 [.call .get [.arg 0] none] (fun _ _ => ∅) 0 (Val.arg 0)
      [.arg 0] none rfl rfl,
    constantProp_spec.2 7⟩

/-! ### C9: symmetry and reflexivity of the alias relation -/

/-- Symmetry of an alias map: `x ∈ alias[y] ↔ y ∈ alias[x]`. -/
def AliSymm (ali : Val → Finset Val) : Prop :=
  ∀ x y, y ∈ ali x → x ∈ ali y

/-- Reflexivity of an alias map on a set of classified values. -/
def AliReflOn (s : Finset Val) (ali : Val → Finset Val) : Prop :=
  ∀ v ∈ s, v ∈ ali v

lemma mergeAliasInfo_subset (aliIn : Val → Finset Val) (src tgt : Val)
    (out : Val → Finset Val) (a : Val) :
    out a ⊆ mergeAliasInfo aliIn src tgt out a := by
  intro x hx
  unfold mergeAliasInfo
  by_cases hat : a = tgt
  · rw [if_pos hat]
    exact Finset.mem_union_left _ hx
  · rw [if_neg hat]
    by_cases haS : a ∈ aliIn src
    · rw [if_pos haS]
      exact Finset.mem_insert_of_mem hx
    · rw [if_neg haS]
      exact hx

lemma mergeAliasInfo_symm {out : Val → Finset Val} (h : AliSymm out)
    (aliIn : Val → Finset Val) (src tgt : Val) :
    AliSymm (mergeAliasInfo aliIn src tgt out) := by
  intro x y hy
  have hsub := mergeAliasInfo_subset aliIn src tgt out
  unfold mergeAliasInfo at hy
  by_cases hxt : x = tgt
  · rw [if_pos hxt] at hy
    rcases Finset.mem_union.1 hy with hyo | hyS
    · exact hsub y (h x y hyo)
    · unfold mergeAliasInfo
      by_cases hyt : y = tgt
      · rw [if_pos hyt]
        have hxy : x = y := hxt.trans hyt.symm
        rw [hxy]
        exact Finset.mem_union_right _ hyS
      · rw [if_neg hyt, if_pos hyS, hxt]
        exact Finset.mem_insert_self _ _
  · rw [if_neg hxt] at hy
    by_cases hxS : x ∈ aliIn src
    · rw [if_pos hxS] at hy
      rcases Finset.mem_insert.1 hy with rfl | hyo
      · unfold mergeAliasInfo
        rw [if_pos rfl]
        exact Finset.mem_union_right _ hxS
      · exact hsub y (h x y hyo)
    · rw [if_neg hxS] at hy
      exact hsub y (h x y hy)

lemma mergeAliasInfo_reflOn {s : Finset Val} {out : Val → Finset Val}
    (h : AliReflOn s out) (aliIn : Val → Finset Val) (src tgt : Val) :
    AliReflOn s (mergeAliasInfo aliIn src tgt out) :=
  fun v hv => mergeAliasInfo_subset aliIn src tgt out v (h v hv)

lemma resetAliasInfo_symm {ali : Val → Finset Val} (h : AliSymm ali) (v : Val) :
    AliSymm (resetAliasInfo ali v) := by
  intro x y hy
  unfold resetAliasInfo at hy ⊢
  by_cases hxv : x = v
  · subst hxv
    rw [if_pos rfl] at hy
    have hyv : y = x := Finset.mem_singleton.1 hy
    subst hyv
    rw [if_pos rfl]
    exact Finset.mem_singleton_self _
  · rw [if_neg hxv] at hy
    by_cases hxin : x ∈ ali v
    · rw [if_pos hxin] at hy
      have hyv : y ≠ v := Finset.ne_of_mem_erase hy
      have hyx : y ∈ ali x := Finset.mem_of_mem_erase hy
      have hx : x ∈ ali y := h x y hyx
      rw [if_neg hyv]
      by_cases hyin : y ∈ ali v
      · rw [if_pos hyin]
        exact Finset.mem_erase.2 ⟨hxv, hx⟩
      · rw [if_neg hyin]
        exact hx
    · rw [if_neg hxin] at hy
      have hx : x ∈ ali y := h x y hy
      by_cases hyv : y = v
      · subst hyv
        exact absurd hx hxin
      · rw [if_neg hyv]
        by_cases hyin : y ∈ ali v
        · rw [if_pos hyin]
          exact Finset.mem_erase.2 ⟨hxv, hx⟩
        · rw [if_neg hyin]
          exact hx

lemma resetAliasInfo_reflOn {s : Finset Val} {ali : Val → Finset Val}
    (h : AliReflOn s ali) (v : Val) : AliReflOn s (resetAliasInfo ali v) := by
  intro w hw
  unfold resetAliasInfo
  by_cases hwv : w = v
  · rw [if_pos hwv]
    rw [hwv]
    exact Finset.mem_singleton_self _
  · rw [if_neg hwv]
    by_cases hwin : w ∈ ali v
    · rw [if_pos hwin]
      exact Finset.mem_erase.2 ⟨hwv, h w hw⟩
    · rw [if_neg hwin]
      exact h w hw

/-- The combined alias invariant: symmetric everywhere, reflexive on the
statically classified values. -/
def AliInv (s : Finset Val) (ali : Val → Finset Val) : Prop :=
  AliSymm ali ∧ AliReflOn s ali

lemma aliInv_reset {s : Finset Val} {ali : Val → Finset Val}
    (h : AliInv s ali) (v : Val) : AliInv s (resetAliasInfo ali v) :=
  ⟨resetAliasInfo_symm h.1 v, resetAliasInfo_reflOn h.2 v⟩

lemma aliInv_merge {s : Finset Val} {out : Val → Finset Val}
    (h : AliInv s out) (aliIn : Val → Finset Val) (src tgt : Val) :
    AliInv s (mergeAliasInfo aliIn src tgt out) :=
  ⟨mergeAliasInfo_symm h.1 aliIn src tgt, mergeAliasInfo_reflOn h.2 aliIn src tgt⟩

lemma foldl_preserve {σ β : Type} (P : σ → Prop) (step : σ → β → σ)
    (hstep : ∀ m b, P m → P (step m b)) :
    ∀ (l : List β) (m : σ), P m → P (l.foldl step m) := by
  intro l
  induction l with
  | nil => intro m hm; exact hm
  | cons b rest ih => intro m hm; exact ih _ (hstep m b hm)

lemma aliInv_loadAliasMerge {s : Finset Val} {out : Val → Finset Val}
    (h : AliInv s out) (aliIn : Val → Finset Val) (r : Val) (pts : List PtTok) :
    AliInv s (loadAliasMerge aliIn r out pts) := by
  unfold loadAliasMerge
  refine foldl_preserve _ _ ?_ pts out h
  intro m ptd hm
  rcases ptd with _ | q
  · exact hm
  · exact aliInv_merge hm aliIn q r

lemma opaque_aliInv {s : Finset Val} (fuel : Nat) (oracle : Nat → Val → Bool)
    (id : Nat) (args : List Val) (rt : Option Bool) (st : AState)
    (h : AliInv s st.ali) :
    AliInv s (opaqueCallTransfer fuel oracle id args rt st).ali := by
  unfold opaqueCallTransfer
  dsimp only
  split
  · dsimp only
    refine foldl_preserve (fun m => AliInv s m) _ ?_ _ _
      (aliInv_reset h (Val.inst id))
    intro m d hm
    rcases d with _ | dv
    · exact hm
    · exact aliInv_merge hm st.ali dv (Val.inst id)
  · dsimp only
    refine foldl_preserve (fun m => AliInv s m) _ ?_ _ _
      (aliInv_reset h (Val.inst id))
    intro m p hm
    exact aliInv_merge hm st.ali p (Val.inst id)
  · exact h

lemma catCall_aliInv {s : Finset Val} (fuel : Nat) (oracle : Nat → Val → Bool)
    (id : Nat) (cn : CName) (args : List Val) (rt : Option Bool) (st : AState)
    (h : AliInv s st.ali) :
    AliInv s (catCallTransfer fuel oracle id cn args rt st).ali := by
  cases cn with
  | new => simpa [catCallTransfer] using aliInv_reset h (Val.inst id)
  | set => rcases h0 : args[0]? with _ | gen <;> simpa [catCallTransfer, h0] using h
  | add => rcases h0 : args[0]? with _ | gen <;> simpa [catCallTransfer, h0] using h
  | sub => rcases h0 : args[0]? with _ | gen <;> simpa [catCallTransfer, h0] using h
  | get => simpa [catCallTransfer] using h
  | destroy => simpa [catCallTransfer] using h
  | printfName => simpa [catCallTransfer] using h
  | lifetime => simpa [catCallTransfer] using h
  | miscFn n =>
    simpa [catCallTransfer] using opaque_aliInv fuel oracle id args rt st h

lemma transfer_aliInv {s : Finset Val} (fuel : Nat) (oracle : Nat → Val → Bool)
    (id : Nat) (inst : Inst) (st : AState) (h : AliInv s st.ali) :
    AliInv s (transfer fuel oracle id inst st).ali := by
  cases inst with
  | alloca =>
    by_cases hty : checkType st.data st.ptr (Val.inst id) = .CAT_PTR
    · simpa [transfer, hty] using aliInv_reset h (Val.inst id)
    · simpa [transfer, hty] using h
  | select ptrTy a b =>
    cases ptrTy
    · simpa [transfer] using h
    · have hali : AliInv s (mergeAliasInfo st.ali b (Val.inst id)
          (mergeAliasInfo st.ali a (Val.inst id)
            (resetAliasInfo st.ali (Val.inst id)))) :=
        aliInv_merge (aliInv_merge (aliInv_reset h _) _ _ _) _ _ _
      rcases hty : checkType st.data st.ptr (Val.inst id) with _ | _ | _ <;>
        simpa [transfer, hty] using hali
  | store v p =>
    by_cases hty : checkType st.data st.ptr p = .CAT_PTR <;>
      simpa [transfer, hty] using h
  | load p =>
    by_cases hty : checkType st.data st.ptr p = .CAT_PTR
    · have hali := aliInv_loadAliasMerge (aliInv_reset h (Val.inst id)) st.ali
        (Val.inst id) (ptsList (st.pt p))
      simpa [transfer, hty] using hali
    · simpa [transfer, hty] using h
  | call cn args rt =>
    simpa [transfer] using catCall_aliInv fuel oracle id cn args rt st h
  | other => simpa [transfer] using h

lemma initState_aliInv (data0 ptr0 : Finset Val) (params : List Val) :
    AliInv (data0 ∪ ptr0) (initState data0 ptr0 params).ali := by
  constructor
  · intro x y hy
    simp only [initState] at hy ⊢
    by_cases hx : x ∈ data0 ∪ ptr0
    · rw [if_pos hx] at hy
      have hyx : y = x := Finset.mem_singleton.1 hy
      subst hyx
      rw [if_pos hx]
      exact Finset.mem_singleton_self _
    · rw [if_neg hx] at hy
      exact absurd hy (Finset.not_mem_empty _)
  · intro v hv
    simp only [initState]
    rw [if_pos hv]
    exact Finset.mem_singleton_self _

lemma scanl_preserve {α β : Type} (f : β → α → β) (P : β → Prop)
    (hstep : ∀ b a, P b → P (f b a)) :
    ∀ (l : List α) (b : β), P b → ∀ x ∈ List.scanl f b l, P x := by
  intro l
  induction l with
  | nil =>
    intro b hb x hx
    simp [List.scanl] at hx
    subst hx
    exact hb
  | cons a rest ih =>
    intro b hb x hx
    rw [List.scanl] at hx
    rcases List.mem_cons.1 hx with rfl | hx2
    · exact hb
    · exact ih (f b a) (hstep b a hb) x hx2

/-- The single-block program consisting of one opaque call returning `i8*`
(dynamically classified CAT_DATA during its own transfer) and a terminator. -/
def progOpaqueRet : List Inst := [.call (.miscFn 0) [] (some true), .other]

/-- C9 counterexample: running the full pipeline on `progOpaqueRet` leaves
the opaque call's result classified `CAT_DATA` at the end of the analysis
(dynamic return-type classification, CatPass.cpp:609-617), yet the stored
`IN` alias map of instruction 0 — a program point of the analysis — does not
contain the value in its own alias class: reflexivity on classified values
fails at that stored program point. -/
theorem alias_reflexivity_counterexample :
    checkType
        (stateAt (analysisStates 1 (fun _ _ => false) progOpaqueRet []) 2).data
        (stateAt (analysisStates 1 (fun _ _ => false) progOpaqueRet []) 2).ptr
        (Val.inst 0) = .CAT_DATA ∧
      Val.inst 0 ∉
        (stateAt (analysisStates 1 (fun _ _ => false) progOpaqueRet []) 0).ali
          (Val.inst 0) := by
  decide

/-- C9 (amended): at every stored program point of the straight-line
analysis the alias relation is symmetric, and it is reflexive on the values
classified *before the analysis begins* (the classifier-prepass sets the
entry seeding reads); values first classified by the dynamic return-type
classification of an opaque call mid-analysis may be missing from alias maps
stored earlier (see the counterexample).  The block-entry merge — pointwise
union of predecessor maps — preserves symmetry, and preserves reflexivity on
any set covered by one operand. -/
theorem alias_consistency_amended :
    (∀ (fuel : Nat) (oracle : Nat → Val → Bool) (prog : List Inst)
      (data0 ptr0 : Finset Val) (params : List Val) (st : AState),
      st ∈ runStates fuel oracle prog data0 ptr0 params →
      AliSymm st.ali ∧ AliReflOn (data0 ∪ ptr0) st.ali) ∧
    (∀ m1 m2 : Val → Finset Val, AliSymm m1 → AliSymm m2 →
      AliSymm (fun v => m1 v ∪ m2 v)) ∧
    (∀ (s : Finset Val) (m1 m2 : Val → Finset Val), AliReflOn s m1 →
      AliReflOn s (fun v => m1 v ∪ m2 v)) := by
  refine ⟨?_, ?_, ?_⟩
  · intro fuel oracle prog data0 ptr0 params st hst
    have hinv : AliInv (data0 ∪ ptr0) st.ali := by
      refine scanl_preserve _ (fun st0 => AliInv (data0 ∪ ptr0) st0.ali) ?_
        prog.enum _ (initState_aliInv data0 ptr0 params) st hst
      intro st0 p h0
      exact transfer_aliInv fuel oracle p.1 p.2 st0 h0
    exact hinv
  · intro m1 m2 h1 h2 x y hy
    rcases Finset.mem_union.1 hy with hy1 | hy2
    · exact Finset.mem_union_left _ (h1 x y hy1)
    · exact Finset.mem_union_right _ (h2 x y hy2)
  · intro s m1 m2 h1 v hv
    exact Finset.mem_union_left _ (h1 v hv)

/-- Witness for the amended C9: the invariant instantiated at the entry
state of the analysis of `CAT_new 5; CAT_get` with its classifier result. -/
theorem alias_consistency_amended_witness :
    AliSymm (initState {Val.inst 0} ∅ []).ali ∧
      AliReflOn ({Val.inst 0} ∪ ∅) (initState {Val.inst 0} ∅ []).ali := by
  have hmem : initState {Val.inst 0} ∅ [] ∈
      runStates 1 (fun _ _ => false) (progNewGet 5) {Val.inst 0} ∅ [] := by
    unfold runStates
    rw [show (progNewGet 5).enum =
      [(0, Inst.call .new [Val.constInt 5] none),
        (1, Inst.call .get [Val.inst 0] none)] from rfl]
    rw [List.scanl]
    exact List.mem_cons_self _ _
  exact alias_consistency_amended.1 1 (fun _ _ => false) (progNewGet 5)
    {Val.inst 0} ∅ [] (initState {Val.inst 0} ∅ []) hmem

end CatPass
